import Mathlib

/-!
Verification of the `edit` file finder: pattern matcher / traversal engine
(`search.go`) and the streaming interactive picker.

Strings are modelled as `List Char` (the programs operate on ASCII path
names, where Go's byte-oriented string operations coincide with the
character-level ones). Go library helpers used by the code
(`strings.Split`, `strings.Index`, `strings.Contains`, `strings.HasPrefix`,
`strings.HasSuffix`, `strings.ToLower`, `sort.Strings`) are given explicit
executable models below.
-/

/-- The wildcard marker `"..."`. -/
def dots : List Char := ['.', '.', '.']

/-- Model of Go `strings.Split(s, "...")`: split on leftmost,
non-overlapping occurrences of the three-dot marker. -/
def splitDots : List Char → List (List Char)
  | [] => [[]]
  | '.' :: '.' :: '.' :: rest => [] :: splitDots rest
  | c :: rest =>
    match splitDots rest with
    | [] => [[c]]
    | p :: ps => (c :: p) :: ps

/-- Model of Go `strings.Index(s, sub)`: index of the leftmost occurrence
of `sub` in `s`, or `none` (Go returns `-1`). -/
def indexOfSub (sub s : List Char) : Option Nat :=
  if sub.isPrefixOf s then some 0
  else
    match s with
    | [] => none
    | _ :: rest => (indexOfSub sub rest).map (· + 1)

/-- Model of Go `strings.Contains(s, sub)`. -/
def containsSub (sub s : List Char) : Bool :=
  (indexOfSub sub s).isSome

/-- The loop over the middle parts in `matchWild` (`search.go` lines
47-54): each middle fragment must appear, in order, in what remains. -/
def matchMids : List (List Char) → List Char → Bool
  | [], _ => true
  | mid :: mids, rest =>
    match indexOfSub mid rest with
    | none => false
    | some idx => matchMids mids (rest.drop (idx + mid.length))

/-- Model of `matchWild` (`search.go` lines 27-56): whether `name` matches a
pattern in which `"..."` is a wildcard matching any substring.  With no
`"..."` the pattern must equal the name exactly. -/
def matchWild (pattern name : List Char) : Bool :=
  match splitDots pattern with
  | [] => true
  | [_] => pattern == name
  | first :: restParts =>
    first.isPrefixOf name &&
      (let rest := name.drop first.length
       let last := restParts.getLastD []
       last.isSuffixOf rest &&
         matchMids restParts.dropLast (rest.take (rest.length - last.length)))

/-- Model of `wildPrefix` (`search.go` lines 60-66): the fixed prefix of a pattern
before the first `"..."`; the flag records whether a marker exists. -/
def wildPre (pattern : List Char) : List Char × Bool :=
  match indexOfSub dots pattern with
  | none => (pattern, false)
  | some idx => (pattern.take idx, true)

/-- Model of `segmentKind` (`search.go` lines 12-17). -/
inductive SegKind where
  | segWild
  | segRecursive
deriving DecidableEq, Repr

/-- Model of `segment` (`search.go` lines 19-22): `pat` is only meaningful for
`segWild` (called `pattern` in the source; renamed to avoid clashing with
variables). A recursive Seg carries the empty pattern. -/
structure Seg where
  kind : SegKind
  pat : List Char
deriving DecidableEq, Repr

/-- Model of Go `strings.Split(s, "/")`. -/
def splitSlash : List Char → List (List Char)
  | [] => [[]]
  | '/' :: rest => [] :: splitSlash rest
  | c :: rest =>
    match splitSlash rest with
    | [] => [[c]]
    | p :: ps => (c :: p) :: ps

/-- The classification loop of `parsePattern` (`search.go` lines 70-80):
drop empty components, classify standalone `"..."` as recursive,
everything else as a wildcard. -/
def classifySegs (parts : List (List Char)) : List Seg :=
  (parts.filter (· ≠ [])).map
    (fun p => if p = dots then ⟨.segRecursive, []⟩ else ⟨.segWild, p⟩)

/-- Normalization rule 1 of `parsePattern` (`search.go` lines 84-88): a
trailing standalone `"..."` gets an explicit match-everything leaf. -/
def rule1 (segs : List Seg) : List Seg :=
  if (segs.getD (segs.length - 1) ⟨.segWild, []⟩).kind = .segRecursive then
    segs ++ [⟨.segWild, dots⟩]
  else segs

/-- Normalization rule 2 of `parsePattern` (`search.go` lines 90-101): if
the last Seg is a wildcard whose literal starts with `"..."` and the
Seg before it (if any) is not recursive, insert a recursive Seg
immediately before it (the source does this with append/copy/assign). -/
def rule2 (segs : List Seg) : List Seg :=
  let last := segs.length - 1
  let lastSeg := segs.getD last ⟨.segWild, []⟩
  if lastSeg.kind = .segWild ∧ dots.isPrefixOf lastSeg.pat = true then
    if last = 0 ∨ (segs.getD (last - 1) ⟨.segWild, []⟩).kind ≠ .segRecursive then
      segs.take last ++ [⟨.segRecursive, []⟩, lastSeg]
    else segs
  else segs

/-- Model of `parsePattern` (`search.go` lines 68-104). `none` models the
"empty pattern" error. -/
def parsePattern (pattern : List Char) : Option (List Seg) :=
  let segs := classifySegs (splitSlash pattern)
  if segs = [] then none
  else some (rule2 (rule1 segs))

/-- Spec-side reading of rule 1 (§3 rule 1 of the spec), phrased via the
last element. -/
def rule1Spec (segs : List Seg) : List Seg :=
  match segs.getLast? with
  | some s => if s.kind = .segRecursive then segs ++ [⟨.segWild, dots⟩] else segs
  | none => segs

/-- Spec-side reading of rule 2 (§3 rule 2 of the spec), phrased on the
reversed list: if the final Seg is a wildcard whose literal starts
with the wildcard operator and the Seg immediately before it (if any)
is not recursive, one recursive Seg is inserted just before it. -/
def rule2Spec (segs : List Seg) : List Seg :=
  match segs.reverse with
  | [] => segs
  | lastSeg :: before =>
    if lastSeg.kind = .segWild ∧ dots <+: lastSeg.pat ∧
        (∀ b ∈ before.head?, b.kind ≠ .segRecursive) then
      before.reverse ++ [⟨.segRecursive, []⟩, lastSeg]
    else segs

/-- The compilation pipeline exactly as the spec words it: split on `/`
dropping empty components, classify standalone `"..."` as Recursive and
everything else as Wildcard, apply rule 1 then rule 2; fail only when the
Seg list is empty. -/
def parsePatternSpec (pattern : List Char) : Option (List Seg) :=
  let segs := classifySegs (splitSlash pattern)
  if segs = [] then none
  else some (rule2Spec (rule1Spec segs))


/-! The filesystem model and the traversal engine.

The filesystem is modelled as a finite tree.  `matchSegments` takes the
subtree of the current directory instead of a path plus a global
filesystem, and returns the list of emitted file paths as component lists
relative to that directory (the source emits `filepath.Join(base, name)`
strings).  Cancellation (the early `false` returns) only truncates the
emission stream; the model produces the full, uncancelled stream.
`os.ReadDir` returns entries sorted by name, modelled by an insertion
sort; `os.Stat` of a child is modelled by association lookup. -/

/-- A node of the modelled filesystem: a regular file (with its
modification time) or a directory with named children. -/
inductive Node where
  | file (mtime : Nat)
  | dir (children : List (List Char × Node))

def isDirN : Node → Bool
  | .dir _ => true
  | .file _ => false

def rawChildren : Node → List (List Char × Node)
  | .file _ => []
  | .dir cs => cs

/-- Byte-wise lexicographic order on names (Go string `<=`). -/
def leStr : List Char → List Char → Bool
  | [], _ => true
  | _ :: _, [] => false
  | a :: as, b :: bs => if a < b then true else if b < a then false else leStr as bs

def insertEntry (x : List Char × Node) :
    List (List Char × Node) → List (List Char × Node)
  | [] => [x]
  | y :: ys => if leStr x.1 y.1 then x :: y :: ys else y :: insertEntry x ys

/-- Sorting a directory listing by name (entry names are unique in a real
directory, so any correct sort produces this order). -/
def sortEntries : List (List Char × Node) → List (List Char × Node)
  | [] => []
  | x :: xs => insertEntry x (sortEntries xs)

/-- Model of `os.ReadDir`: children sorted by name. -/
def readDirN (t : Node) : List (List Char × Node) :=
  sortEntries (rawChildren t)

/-- Model of `strings.HasPrefix(name, ".")`. -/
def isHidden : List Char → Bool
  | [] => false
  | c :: _ => c = '.'

/-- Model of `os.Stat(filepath.Join(base, name))`: look up a child by
name. -/
def childNamed (t : Node) (name : List Char) : Option Node :=
  ((rawChildren t).find? (fun e => e.1 = name)).map (·.2)

/-- Model of `listDirs` (`search.go` lines 317-330): sorted non-hidden
subdirectories of a directory; the model keeps the subtree with each
name. -/
def listDirs (t : Node) : List (List Char × Node) :=
  sortEntries ((rawChildren t).filter (fun e => isDirN e.2 && !(isHidden e.1)))

def containsDots (p : List Char) : Bool := (indexOfSub dots p).isSome

def mtimeOf : Node → Nat
  | .file m => m
  | .dir _ => 0

def insertMtime (x : List Char × Node) :
    List (List Char × Node) → List (List Char × Node)
  | [] => [x]
  | y :: ys => if mtimeOf y.2 < mtimeOf x.2 then x :: y :: ys else y :: insertMtime x ys

/-- Model of `sortByMtime` (`search.go` lines 333-342), newest first.  The source
uses an unstable sort with an arbitrary order on equal timestamps; the
model fixes one such order (stat never fails in the model). -/
def sortMtime : List (List Char × Node) → List (List Char × Node)
  | [] => []
  | x :: xs => insertMtime x (sortMtime xs)

def insertName (x : List Char) : List (List Char) → List (List Char)
  | [] => [x]
  | y :: ys => if leStr x y then x :: y :: ys else y :: insertName x ys

/-- Model of `sort.Strings` on the collected leaf batch: the joined paths share the
directory prefix, so it is a sort by file name. -/
def sortNames : List (List Char) → List (List Char)
  | [] => []
  | x :: xs => insertName x (sortNames xs)

/-- The filter applied to directory entries in the wildcard branch of
`matchSegments` (`search.go` lines 233-246): directories only, skip
hidden, cheap fixed-prefix test, then `matchWild`. -/
def wildDirCands (p : List Char) (t : Node) : List (List Char × Node) :=
  (readDirN t).filter (fun e =>
    isDirN e.2 && !(isHidden e.1) &&
      (((wildPre p).1).isEmpty || ((wildPre p).1).isPrefixOf e.1) && matchWild p e.1)

/-- The filter applied to directory entries in the wildcard branch of
`matchLeaf` (`search.go` lines 281-296): files only, skip hidden, cheap
fixed-prefix test, then `matchWild`. -/
def wildFileCands (p : List Char) (t : Node) : List (List Char × Node) :=
  (readDirN t).filter (fun e =>
    !(isDirN e.2) && !(isHidden e.1) &&
      (((wildPre p).1).isEmpty || ((wildPre p).1).isPrefixOf e.1) && matchWild p e.1)

/-- Model of `matchLeaf` (`search.go` lines 259-314): the file names emitted from
one directory by the leaf segment (the source emits them joined to
`base`).  `byM` is the `sortByMtime` mode. -/
def matchLeaf (byM : Bool) (t : Node) (seg : Seg) : List (List Char) :=
  if seg.kind = .segRecursive then []
  else if containsDots seg.pat = false then
    match childNamed t seg.pat with
    | some (.file _) => [seg.pat]
    | _ => []
  else
    let files := wildFileCands seg.pat t
    if byM then (sortMtime files).map (·.1) else sortNames (files.map (·.1))

theorem mem_insertEntry {x y : List Char × Node} {l : List (List Char × Node)}
    (h : y ∈ insertEntry x l) : y = x ∨ y ∈ l := by
  induction l with
  | nil => simp [insertEntry] at h; simp [h]
  | cons z zs ih =>
    rw [insertEntry] at h
    by_cases hc : leStr x.1 z.1 = true
    · rw [if_pos hc] at h
      simp only [List.mem_cons] at h ⊢
      tauto
    · rw [if_neg hc] at h
      simp only [List.mem_cons] at h ⊢
      rcases h with h | h
      · tauto
      · rcases ih h with h | h <;> tauto

theorem mem_sortEntries {y : List Char × Node} {l : List (List Char × Node)}
    (h : y ∈ sortEntries l) : y ∈ l := by
  induction l with
  | nil => simp [sortEntries] at h
  | cons z zs ih =>
    rw [sortEntries] at h
    rcases mem_insertEntry h with h | h
    · simp [h]
    · simp [ih h]

theorem sizeOf_snd_lt {e : List Char × Node} {cs : List (List Char × Node)}
    (h : e ∈ cs) : sizeOf e.2 < sizeOf (Node.dir cs) := by
  have h3 := List.sizeOf_lt_of_mem h
  have h4 : sizeOf e.2 < sizeOf e := by
    obtain ⟨a, b⟩ := e
    simp only [Prod.mk.sizeOf_spec]
    omega
  simp only [Node.dir.sizeOf_spec]
  omega

theorem sizeOf_mem_readDirN {e : List Char × Node} {t : Node}
    (h : e ∈ readDirN t) : sizeOf e.2 < sizeOf t := by
  cases t with
  | file m =>
    rw [readDirN, rawChildren] at h
    have := mem_sortEntries h
    simp at this
  | dir cs =>
    rw [readDirN, rawChildren] at h
    exact sizeOf_snd_lt (mem_sortEntries h)

theorem sizeOf_mem_listDirs {e : List Char × Node} {t : Node}
    (h : e ∈ listDirs t) : sizeOf e.2 < sizeOf t := by
  rw [listDirs] at h
  have h2 := List.mem_of_mem_filter (mem_sortEntries h)
  cases t with
  | file m => simp [rawChildren] at h2
  | dir cs => exact sizeOf_snd_lt h2

theorem sizeOf_mem_wildDirCands {e : List Char × Node} {p : List Char}
    {t : Node} (h : e ∈ wildDirCands p t) : sizeOf e.2 < sizeOf t :=
  sizeOf_mem_readDirN (List.mem_of_mem_filter h)

theorem sizeOf_childNamed {t sub : Node} {name : List Char}
    (h : childNamed t name = some sub) : sizeOf sub < sizeOf t := by
  rw [childNamed] at h
  cases hfind : (rawChildren t).find? (fun e => e.1 = name) with
  | none => rw [hfind] at h; simp at h
  | some e =>
    rw [hfind] at h
    simp at h
    have hmem := List.mem_of_find?_eq_some hfind
    cases t with
    | file m => simp [rawChildren] at hmem
    | dir cs =>
      rw [rawChildren] at hmem
      have := sizeOf_snd_lt hmem
      rw [h] at this
      exact this

/-- Model of `matchSegments` (`search.go` lines 188-255): the file paths (as
component lists relative to `t`) emitted when interpreting the segment
list against directory `t`. -/
def matchSegments (byM : Bool) (t : Node) (segs : List Seg) :
    List (List (List Char)) :=
  match segs with
  | [] => []
  | [seg] => (matchLeaf byM t seg).map (fun n => [n])
  | seg :: rest =>
    match seg.kind with
    | .segRecursive =>
      matchSegments byM t rest ++
        (listDirs t).attach.flatMap
          (fun e => (matchSegments byM e.1.2 segs).map (e.1.1 :: ·))
    | .segWild =>
      if containsDots seg.pat = false then
        match hc : childNamed t seg.pat with
        | some sub =>
          if isDirN sub then (matchSegments byM sub rest).map (seg.pat :: ·)
          else []
        | none => []
      else
        (wildDirCands seg.pat t).attach.flatMap
          (fun e => (matchSegments byM e.1.2 rest).map (e.1.1 :: ·))
termination_by (sizeOf t, segs.length)
decreasing_by
  · apply Prod.Lex.right
    simp only [List.length_cons]
    omega
  · apply Prod.Lex.left
    exact sizeOf_mem_listDirs e.2
  · apply Prod.Lex.left
    exact sizeOf_childNamed hc
  · apply Prod.Lex.left
    exact sizeOf_mem_wildDirCands e.2

theorem attach_flatMap_eq {α β : Type} (l : List α) (f : α → List β) :
    l.attach.flatMap (fun e => f e.1) = l.flatMap f := by
  rw [List.flatMap, List.flatMap, ← List.attach_map_coe l f]
  try rw [List.map_map]
  try rfl

theorem matchSegments_leaf (byM : Bool) (t : Node) (seg : Seg) :
    matchSegments byM t [seg] = (matchLeaf byM t seg).map (fun n => [n]) := by
  rw [matchSegments]

theorem matchSegments_rec_cons (byM : Bool) (t : Node) (p : List Char)
    (s2 : Seg) (rest2 : List Seg) :
    matchSegments byM t (⟨.segRecursive, p⟩ :: s2 :: rest2) =
      matchSegments byM t (s2 :: rest2) ++
        (listDirs t).attach.flatMap
          (fun e => (matchSegments byM e.1.2
            (⟨.segRecursive, p⟩ :: s2 :: rest2)).map (e.1.1 :: ·)) := by
  rw [matchSegments]
  simp


/-- C3. Interpreting a segment list that begins with a Recursive
segment first matches the remaining segments against the current
directory itself, and then — regardless of whether that produced
matches — recurses into each of the sorted, non-hidden immediate
subdirectories (`listDirs`) with the same Recursive segment still at the
head.  (Stated on the emission stream; for `rest = []` both sides are
empty because a lone trailing Recursive segment emits nothing.) -/
theorem matchSegments_recursive_head (byM : Bool) (t : Node) (p : List Char)
    (rest : List Seg) :
    matchSegments byM t (⟨.segRecursive, p⟩ :: rest) =
      matchSegments byM t rest ++
        (listDirs t).flatMap
          (fun e =>
            (matchSegments byM e.2 (⟨.segRecursive, p⟩ :: rest)).map
              (e.1 :: ·)) := by
  cases rest with
  | nil =>
    have h1 : ∀ u, matchSegments byM u [(⟨.segRecursive, p⟩ : Seg)] = [] := by
      intro u
      rw [matchSegments_leaf]
      simp [matchLeaf]
    rw [h1, matchSegments.eq_1, List.nil_append]
    symm
    apply List.flatMap_eq_nil_iff.mpr
    intro e _
    rw [h1]
    rfl
  | cons s2 rest2 =>
    rw [matchSegments_rec_cons]
    rw [attach_flatMap_eq (listDirs t)
      (fun e => (matchSegments byM e.2
        (⟨.segRecursive, p⟩ :: s2 :: rest2)).map (e.1 :: ·))]

/-- C4, counterexample. A hidden file IS matched and emitted by an
exact (marker-free) leaf segment: the pattern `.bashrc` against a
directory containing the hidden file `.bashrc` emits it, because the
exact branch of `matchLeaf` uses a direct stat and never applies the
hidden-name filter. -/
theorem hidden_emitted_by_exact_leaf :
    isHidden (".bashrc".toList) = true ∧
      matchSegments false (Node.dir [(".bashrc".toList, Node.file 0)])
        [⟨.segWild, ".bashrc".toList⟩] = [[".bashrc".toList]] := by
  constructor
  · decide
  · simp [matchSegments, matchLeaf, containsDots, indexOfSub, childNamed,
      rawChildren, dots, List.isPrefixOf]


theorem mem_insertName {x y : List Char} {l : List (List Char)}
    (h : y ∈ insertName x l) : y = x ∨ y ∈ l := by
  induction l with
  | nil => simp [insertName] at h; simp [h]
  | cons z zs ih =>
    rw [insertName] at h
    by_cases hc : leStr x z = true
    · rw [if_pos hc] at h
      simp only [List.mem_cons] at h ⊢
      tauto
    · rw [if_neg hc] at h
      simp only [List.mem_cons] at h ⊢
      rcases h with h | h
      · tauto
      · rcases ih h with h | h <;> tauto

theorem mem_sortNames {y : List Char} {l : List (List Char)}
    (h : y ∈ sortNames l) : y ∈ l := by
  induction l with
  | nil => simp [sortNames] at h
  | cons z zs ih =>
    rw [sortNames] at h
    rcases mem_insertName h with h | h
    · simp [h]
    · simp [ih h]

theorem mem_insertMtime {x y : List Char × Node} {l : List (List Char × Node)}
    (h : y ∈ insertMtime x l) : y = x ∨ y ∈ l := by
  induction l with
  | nil => simp [insertMtime] at h; simp [h]
  | cons z zs ih =>
    rw [insertMtime] at h
    by_cases hc : mtimeOf z.2 < mtimeOf x.2
    · rw [if_pos hc] at h
      simp only [List.mem_cons] at h ⊢
      tauto
    · rw [if_neg hc] at h
      simp only [List.mem_cons] at h ⊢
      rcases h with h | h
      · tauto
      · rcases ih h with h | h <;> tauto

theorem mem_sortMtime {y : List Char × Node} {l : List (List Char × Node)}
    (h : y ∈ sortMtime l) : y ∈ l := by
  induction l with
  | nil => simp [sortMtime] at h
  | cons z zs ih =>
    rw [sortMtime] at h
    rcases mem_insertMtime h with h | h
    · simp [h]
    · simp [ih h]

theorem hidden_of_mem_listDirs {e : List Char × Node} {t : Node}
    (h : e ∈ listDirs t) : isHidden e.1 = false := by
  rw [listDirs] at h
  have h2 := List.of_mem_filter (mem_sortEntries h)
  simp only [Bool.and_eq_true, Bool.not_eq_true'] at h2
  exact h2.2

theorem hidden_of_mem_wildDirCands {e : List Char × Node} {p : List Char}
    {t : Node} (h : e ∈ wildDirCands p t) : isHidden e.1 = false := by
  rw [wildDirCands] at h
  have h2 := List.of_mem_filter h
  simp only [Bool.and_eq_true, Bool.not_eq_true'] at h2
  exact h2.1.1.2

theorem hidden_of_mem_wildFileCands {e : List Char × Node} {p : List Char}
    {t : Node} (h : e ∈ wildFileCands p t) : isHidden e.1 = false := by
  rw [wildFileCands] at h
  have h2 := List.of_mem_filter h
  simp only [Bool.and_eq_true, Bool.not_eq_true'] at h2
  exact h2.1.1.2

theorem matchSegments_wild_cons_dots (byM : Bool) (t : Node) (p : List Char)
    (s2 : Seg) (rest2 : List Seg) (h : containsDots p = true) :
    matchSegments byM t (⟨.segWild, p⟩ :: s2 :: rest2) =
      (wildDirCands p t).attach.flatMap
        (fun e => (matchSegments byM e.1.2 (s2 :: rest2)).map (e.1.1 :: ·)) := by
  rw [matchSegments]
  · simp only []
    rw [if_neg (by simp [h])]
  · simp

theorem matchLeaf_no_hidden (byM : Bool) (t : Node) (seg : Seg)
    (hdots : seg.kind = .segWild → containsDots seg.pat = true) :
    ∀ nm ∈ matchLeaf byM t seg, isHidden nm = false := by
  intro nm hnm
  rw [matchLeaf] at hnm
  by_cases hk : seg.kind = SegKind.segRecursive
  · rw [if_pos hk] at hnm
    simp at hnm
  · rw [if_neg hk] at hnm
    have hW : seg.kind = SegKind.segWild := by
      cases hkk : seg.kind
      · rfl
      · exact absurd hkk hk
    rw [hdots hW] at hnm
    simp only [Bool.true_eq_false, if_false] at hnm
    by_cases hb : byM = true
    · rw [if_pos hb] at hnm
      simp only [List.mem_map] at hnm
      obtain ⟨e, he, rfl⟩ := hnm
      exact hidden_of_mem_wildFileCands (mem_sortMtime he)
    · rw [if_neg hb] at hnm
      have h2 := mem_sortNames hnm
      simp only [List.mem_map] at h2
      obtain ⟨e, he, rfl⟩ := h2
      exact hidden_of_mem_wildFileCands he

theorem sizeOf_node_pos (t : Node) : 0 < sizeOf t := by
  cases t <;> simp_arith

theorem matchSegments_no_hidden_aux (n : Nat) :
    ∀ (byM : Bool) (t : Node) (segs : List Seg),
      sizeOf t + segs.length ≤ n →
      (∀ s ∈ segs, s.kind = .segWild → containsDots s.pat = true) →
      ∀ path ∈ matchSegments byM t segs, ∀ c ∈ path, isHidden c = false := by
  induction n with
  | zero =>
    intro byM t segs hle
    have := sizeOf_node_pos t
    omega
  | succ n ih =>
    intro byM t segs hle hsegs path hpath c hc
    cases segs with
    | nil =>
      rw [matchSegments.eq_1] at hpath
      simp at hpath
    | cons seg rest =>
      cases rest with
      | nil =>
        rw [matchSegments_leaf] at hpath
        simp only [List.mem_map] at hpath
        obtain ⟨nm, hnm, hpp⟩ := hpath
        rw [← hpp] at hc
        simp only [List.mem_singleton] at hc
        rw [hc]
        exact matchLeaf_no_hidden byM t seg (hsegs seg (by simp)) nm hnm
      | cons s2 rest2 =>
        obtain ⟨k, p⟩ := seg
        cases k with
        | segRecursive =>
          rw [matchSegments_rec_cons] at hpath
          rcases List.mem_append.mp hpath with hmem | hmem
          · refine ih byM t (s2 :: rest2) ?_ ?_ path hmem c hc
            · simp only [List.length_cons] at hle ⊢
              omega
            · intro s hs
              exact hsegs s (by simp [hs])
          · simp only [List.mem_flatMap, List.mem_map] at hmem
            obtain ⟨e, -, path', hpath', hpp⟩ := hmem
            rw [← hpp] at hc
            rcases List.mem_cons.mp hc with rfl | hc2
            · exact hidden_of_mem_listDirs e.2
            · refine ih byM e.1.2 (⟨.segRecursive, p⟩ :: s2 :: rest2) ?_ hsegs
                path' hpath' c hc2
              have := sizeOf_mem_listDirs e.2
              simp only [List.length_cons] at hle ⊢
              omega
        | segWild =>
          have hdots : containsDots p = true :=
            hsegs ⟨.segWild, p⟩ (by simp) rfl
          rw [matchSegments_wild_cons_dots byM t p s2 rest2 hdots] at hpath
          simp only [List.mem_flatMap, List.mem_map] at hpath
          obtain ⟨e, -, path', hpath', hpp⟩ := hpath
          rw [← hpp] at hc
          rcases List.mem_cons.mp hc with rfl | hc2
          · exact hidden_of_mem_wildDirCands e.2
          · refine ih byM e.1.2 (s2 :: rest2) ?_ ?_ path' hpath' c hc2
            · have := sizeOf_mem_wildDirCands e.2
              simp only [List.length_cons] at hle ⊢
              omega
            · intro s hs
              exact hsegs s (by simp [hs])

/-- C4, amended. Hidden (dot-prefixed) entries are never listed,
descended into, or emitted by Recursive segments or by marker-containing
Wildcard segments: whenever every Wildcard segment of the list contains
the wildcard marker, no emitted path has a hidden component.  (Exact,
marker-free segments use a direct stat and CAN name a hidden entry; see
the counterexample.) -/
theorem matchSegments_no_hidden (byM : Bool) (t : Node) (segs : List Seg)
    (hsegs : ∀ s ∈ segs, s.kind = .segWild → containsDots s.pat = true) :
    ∀ path ∈ matchSegments byM t segs, ∀ c ∈ path, isHidden c = false :=
  matchSegments_no_hidden_aux (sizeOf t + segs.length) byM t segs le_rfl hsegs

/-- A small tree with a hidden subdirectory, used by the C4 witness. -/
def nodeC4 : Node :=
  Node.dir [("a.go".toList, Node.file 0),
    (".h".toList, Node.dir [("b.go".toList, Node.file 0)])]

/-- The compiled form of the pattern `...go`. -/
def segsC4 : List Seg :=
  [⟨.segRecursive, []⟩, ⟨.segWild, "...go".toList⟩]

/-- Witness for the amended C4: the pattern `...go` emits `a.go` from the
tree, and that emitted component is not hidden. -/
theorem matchSegments_no_hidden_witness :
    isHidden ("a.go".toList) = false :=
  matchSegments_no_hidden false nodeC4 segsC4 (by decide)
    ["a.go".toList]
    (by
      have hev : matchSegments false nodeC4 segsC4 = [["a.go".toList]] := by
        show matchSegments false nodeC4
          [⟨.segRecursive, []⟩, ⟨.segWild, "...go".toList⟩] = _
        rw [matchSegments_rec_cons, matchSegments_leaf]
        rw [show listDirs nodeC4 = [] from rfl]
        rw [show matchLeaf false nodeC4 ⟨.segWild, "...go".toList⟩ =
          ["a.go".toList] from rfl]
        simp
      rw [hev]
      simp)
    ("a.go".toList) (by simp)


/-! The interactive picker state machine.

Model of the `picker` struct and its mutating operations.  Go `int`
fields are modelled as `Int`.  The display-path computation
(`displayPath`, a `filepath.Rel`-based library call) is modelled as an
arbitrary function `dp`, carried in the state like the `pwd` field it
derives from; every theorem below holds for every such function.
`strings.ToLower` is modelled per character (ASCII).  The mutex, the
renderer, and the spinner counter are irrelevant to the state
transitions and are not modelled. -/

def toLowerStr (s : List Char) : List Char := s.map Char.toLower

/-- The `picker` struct fields used by the state transitions. -/
structure Picker where
  allResults : List (List Char)
  filtered : List Nat
  search : List Char
  selected : Int
  offset : Int
  maxVisible : Int
  searching : Bool
  dp : List Char → List Char

/-- Model of `newPicker`: `maxVisible` is 10 and `searching` starts true; the
other fields are Go zero values. -/
def newPicker (dp : List Char → List Char) : Picker :=
  { allResults := [], filtered := [], search := [], selected := 0,
    offset := 0, maxVisible := 10, searching := true, dp := dp }

/-- Model of `matches` (part_000 lines 64-70): empty search matches everything,
otherwise case-insensitive substring containment of the display path. -/
def pickerMatches (p : Picker) (path : List Char) : Bool :=
  if p.search = [] then true
  else containsSub (toLowerStr p.search) (toLowerStr (p.dp path))

/-- Model of `addResult` (part_000 lines 46-54): append, and extend `filtered`
with the new index when it matches the current search. -/
def addResult (p : Picker) (path : List Char) : Picker :=
  let all := p.allResults ++ [path]
  if pickerMatches p path then
    { p with allResults := all, filtered := p.filtered ++ [all.length - 1] }
  else
    { p with allResults := all }

/-- Model of `searchDone` (part_000 lines 56-60). -/
def searchDone (p : Picker) : Picker :=
  { p with searching := false }

/-- The filter loop of `setSearch` (part_000 lines 79-85): indices into
the result list whose lowered display path contains `lower`, in order. -/
def filterIdxFrom (dpf : List Char → List Char) (lower : List Char)
    (k : Nat) : List (List Char) → List Nat
  | [] => []
  | r :: rs =>
    if containsSub lower (toLowerStr (dpf r)) then
      k :: filterIdxFrom dpf lower (k + 1) rs
    else
      filterIdxFrom dpf lower (k + 1) rs

/-- Model of `clampOffset` (part_000 lines 110-120): three sequential clamps on
the scroll offset. -/
def clampOffset (p : Picker) : Picker :=
  let o1 := if p.selected < p.offset then p.selected else p.offset
  let o2 := if p.selected ≥ o1 + p.maxVisible then p.selected - p.maxVisible + 1 else o1
  let o3 := if o2 < 0 then 0 else o2
  { p with offset := o3 }

/-- Model of `rebuildFiltered` (part_000 lines 103-108): all indices, in order. -/
def rebuildFiltered (p : Picker) : Picker :=
  { p with filtered := List.range p.allResults.length }

/-- Model of `setSearch` (part_000 lines 74-99).  Returns the accepted flag and
the new state; a rejected update returns the state unchanged. -/
def setSearch (p : Picker) (s : List Char) : Bool × Picker :=
  if s ≠ [] then
    let lower := toLowerStr s
    let filtered := filterIdxFrom p.dp lower 0 p.allResults
    if filtered = [] ∧ p.searching = false then (false, p)
    else
      (true, clampOffset
        { p with
            search := s
            filtered := filtered
            selected := 0
            offset := 0 })
  else
    (true, clampOffset { (rebuildFiltered { p with search := [] }) with
      offset := 0 })

/-- Model of `moveUp` (part_000 lines 122-129). -/
def moveUp (p : Picker) : Picker :=
  if p.selected > 0 then clampOffset { p with selected := p.selected - 1 }
  else p

/-- Model of `moveDown` (part_000 lines 131-138). -/
def moveDown (p : Picker) : Picker :=
  if p.selected < (p.filtered.length : Int) - 1 then
    clampOffset { p with selected := p.selected + 1 }
  else p

/-- The operations that mutate picker state during a session: result
arrival, filter update, cursor moves, and engine exhaustion. -/
inductive POp where
  | add (path : List Char)
  | set (s : List Char)
  | up
  | down
  | done

def stepPicker (p : Picker) : POp → Picker
  | .add path => addResult p path
  | .set s => (setSearch p s).2
  | .up => moveUp p
  | .down => moveDown p
  | .done => searchDone p

/-- A picker session: the fold of operations from the fresh state. -/
def runOps (dp : List Char → List Char) (ops : List POp) : Picker :=
  ops.foldl stepPicker (newPicker dp)


/-! Helper lemmas about the picker. -/

theorem containsSub_nil (x : List Char) : containsSub [] x = true := by
  cases x <;> rfl

theorem filterIdxFrom_shift (dpf : List Char → List Char)
    (lower : List Char) (k : Nat) (l : List (List Char)) :
    filterIdxFrom dpf lower (k + 1) l =
      (filterIdxFrom dpf lower k l).map (· + 1) := by
  induction l generalizing k with
  | nil => simp [filterIdxFrom]
  | cons r rs ih =>
    rw [filterIdxFrom, filterIdxFrom]
    by_cases hc : containsSub lower (toLowerStr (dpf r)) = true
    · rw [if_pos hc, if_pos hc, List.map_cons, ih]
    · rw [if_neg hc, if_neg hc, ih]

theorem filterIdxFrom_append (dpf : List Char → List Char)
    (lower : List Char) (k : Nat) (l1 l2 : List (List Char)) :
    filterIdxFrom dpf lower k (l1 ++ l2) =
      filterIdxFrom dpf lower k l1 ++
        filterIdxFrom dpf lower (k + l1.length) l2 := by
  induction l1 generalizing k with
  | nil => simp [filterIdxFrom]
  | cons r rs ih =>
    rw [List.cons_append, filterIdxFrom, filterIdxFrom]
    simp only [List.length_cons]
    rw [ih]
    have hlen : k + 1 + rs.length = k + (rs.length + 1) := by omega
    rw [hlen]
    by_cases hc : containsSub lower (toLowerStr (dpf r)) = true
    · rw [if_pos hc, if_pos hc, List.cons_append]
    · rw [if_neg hc, if_neg hc]

theorem filterIdxFrom_nil_search (dpf : List Char → List Char)
    (k : Nat) (l : List (List Char)) :
    filterIdxFrom dpf [] k l = (List.range l.length).map (· + k) := by
  induction l generalizing k with
  | nil => simp [filterIdxFrom]
  | cons r rs ih =>
    rw [filterIdxFrom, if_pos (containsSub_nil _), ih, List.length_cons,
      List.range_succ_eq_map, List.map_cons, List.map_map]
    have h0 : 0 + k = k := by omega
    have hfg : (fun x => x + (k + 1)) = ((fun x => x + k) ∘ Nat.succ) := by
      funext x
      simp only [Function.comp_apply, Nat.succ_eq_add_one]
      omega
    rw [h0, hfg]

theorem length_filterIdxFrom_le (dpf : List Char → List Char)
    (lower : List Char) (k : Nat) (l : List (List Char)) :
    (filterIdxFrom dpf lower k l).length ≤ l.length := by
  induction l generalizing k with
  | nil => simp [filterIdxFrom]
  | cons r rs ih =>
    rw [filterIdxFrom]
    by_cases hc : containsSub lower (toLowerStr (dpf r)) = true
    · rw [if_pos hc]
      simp only [List.length_cons]
      exact Nat.succ_le_succ (ih (k + 1))
    · rw [if_neg hc]
      simp only [List.length_cons]
      exact Nat.le_succ_of_le (ih (k + 1))


theorem filterIdxFrom_eq_range_filter (dpf : List Char → List Char)
    (lower : List Char) (R : List (List Char)) :
    filterIdxFrom dpf lower 0 R =
      (List.range R.length).filter
        (fun i => containsSub lower (toLowerStr (dpf (R.getD i [])))) := by
  induction R with
  | nil => simp [filterIdxFrom]
  | cons r rs ih =>
    rw [filterIdxFrom, filterIdxFrom_shift, ih, List.length_cons,
      List.range_succ_eq_map, List.filter_cons]
    simp only [List.getD_cons_zero]
    rw [List.filter_map]
    have hfg : ((fun i => containsSub lower (toLowerStr (dpf ((r :: rs).getD i [])))) ∘ Nat.succ) =
        (fun i => containsSub lower (toLowerStr (dpf (rs.getD i [])))) := by
      funext i
      simp [Function.comp_apply]
    have hmap : (fun x => x + 1) = Nat.succ := by
      funext x
      omega
    rw [hfg, hmap]

theorem pairwise_lt_filterIdxFrom (dpf : List Char → List Char)
    (lower : List Char) (R : List (List Char)) :
    (filterIdxFrom dpf lower 0 R).Pairwise (· < ·) := by
  rw [filterIdxFrom_eq_range_filter]
  exact (List.pairwise_lt_range _).sublist (List.filter_sublist _)

theorem pickerMatches_eq (p : Picker) (path : List Char) :
    pickerMatches p path =
      containsSub (toLowerStr p.search) (toLowerStr (p.dp path)) := by
  rw [pickerMatches]
  by_cases h : p.search = []
  · rw [if_pos h, h]
    exact (containsSub_nil _).symm
  · rw [if_neg h]

/-- The picker state invariant: the selection cursor is in range, the
scroll window contains it, and the cached `filtered` list is exactly the
substring filter of `allResults` by `search`. -/
def pickerInv (p : Picker) : Prop :=
  p.maxVisible = 10 ∧
  0 ≤ p.selected ∧
  (p.filtered = [] → p.selected = 0) ∧
  (p.filtered ≠ [] → p.selected < (p.filtered.length : Int)) ∧
  0 ≤ p.offset ∧ p.offset ≤ p.selected ∧ p.selected < p.offset + p.maxVisible ∧
  p.filtered = filterIdxFrom p.dp (toLowerStr p.search) 0 p.allResults

theorem clampOffset_window (p : Picker) (hs : 0 ≤ p.selected)
    (hm : 0 < p.maxVisible) :
    0 ≤ (clampOffset p).offset ∧ (clampOffset p).offset ≤ p.selected ∧
      p.selected < (clampOffset p).offset + p.maxVisible := by
  simp only [clampOffset]
  split_ifs <;> omega

theorem filterIdxFrom_nil_zero (dpf : List Char → List Char)
    (l : List (List Char)) :
    filterIdxFrom dpf [] 0 l = List.range l.length := by
  rw [filterIdxFrom_nil_search]
  simp

theorem pickerInv_clampOffset (q : Picker)
    (hmax : q.maxVisible = 10) (hs0 : 0 ≤ q.selected)
    (hemp : q.filtered = [] → q.selected = 0)
    (hlt : q.filtered ≠ [] → q.selected < (q.filtered.length : Int))
    (hfilt : q.filtered = filterIdxFrom q.dp (toLowerStr q.search) 0 q.allResults) :
    pickerInv (clampOffset q) := by
  obtain ⟨ha, hb, hcw⟩ := clampOffset_window q hs0 (by omega)
  exact ⟨hmax, hs0, hemp, hlt, ha, hb, hcw, hfilt⟩

theorem pickerInv_newPicker (dp : List Char → List Char) :
    pickerInv (newPicker dp) :=
  ⟨rfl, le_refl 0, fun _ => rfl, fun h => absurd rfl h, le_refl 0,
    le_refl 0, by norm_num [newPicker], rfl⟩

theorem pickerInv_step (p : Picker) (op : POp) (h : pickerInv p) :
    pickerInv (stepPicker p op) := by
  obtain ⟨hmax, hsel0, hempty, hlt, hoff0, hoffle, hwin, hfilt⟩ := h
  cases op with
  | add path =>
    simp only [stepPicker, addResult]
    have hre : filterIdxFrom p.dp (toLowerStr p.search) 0 (p.allResults ++ [path]) =
        p.filtered ++
          (if pickerMatches p path = true then [p.allResults.length] else []) := by
      rw [filterIdxFrom_append, ← hfilt, pickerMatches_eq]
      congr 1
      by_cases hc : containsSub (toLowerStr p.search) (toLowerStr (p.dp path)) = true
      · rw [if_pos hc, filterIdxFrom, if_pos hc, filterIdxFrom]
        simp
      · rw [if_neg hc, filterIdxFrom, if_neg hc, filterIdxFrom]
    by_cases hc : pickerMatches p path = true
    · rw [if_pos hc]
      rw [if_pos hc] at hre
      refine ⟨hmax, hsel0, ?_, ?_, hoff0, hoffle, hwin, ?_⟩
      · intro hemp
        exact absurd hemp (by simp)
      · intro _
        show p.selected < ((p.filtered ++ [(p.allResults ++ [path]).length - 1]).length : Int)
        rw [List.length_append]
        by_cases hfe : p.filtered = []
        · rw [hempty hfe, hfe]
          simp
        · have := hlt hfe
          push_cast
          omega
      · show p.filtered ++ [(p.allResults ++ [path]).length - 1] =
          filterIdxFrom p.dp (toLowerStr p.search) 0 (p.allResults ++ [path])
        rw [hre]
        congr 2
        rw [List.length_append]
        simp
    · rw [if_neg hc]
      rw [if_neg hc, List.append_nil] at hre
      exact ⟨hmax, hsel0, hempty, hlt, hoff0, hoffle, hwin, hre.symm⟩
  | set s =>
    simp only [stepPicker, setSearch]
    by_cases hs : s ≠ []
    · rw [if_pos hs]
      by_cases hrej : filterIdxFrom p.dp (toLowerStr s) 0 p.allResults = [] ∧
          p.searching = false
      · rw [if_pos hrej]
        exact ⟨hmax, hsel0, hempty, hlt, hoff0, hoffle, hwin, hfilt⟩
      · rw [if_neg hrej]
        apply pickerInv_clampOffset
        · exact hmax
        · exact le_refl 0
        · exact fun _ => rfl
        · intro hne
          show (0 : Int) < ((filterIdxFrom p.dp (toLowerStr s) 0 p.allResults).length : Int)
          have hpos := List.length_pos.mpr hne
          exact_mod_cast hpos
        · rfl
    · rw [if_neg hs]
      push_neg at hs
      subst hs
      apply pickerInv_clampOffset
      · exact hmax
      · exact hsel0
      · intro hq
        show p.selected = 0
        have hq2 : List.range p.allResults.length = [] := hq
        have hlen : p.allResults.length = 0 := by
          have := congrArg List.length hq2
          simpa using this
        have hallnil : p.allResults = [] := List.length_eq_zero.mp hlen
        apply hempty
        rw [hfilt, hallnil, filterIdxFrom]
      · intro hne
        show p.selected < ((List.range p.allResults.length).length : Int)
        rw [List.length_range]
        have hne2 : List.range p.allResults.length ≠ [] := hne
        have hlenpos : 0 < p.allResults.length := by
          by_contra hcon
          push_neg at hcon
          have h0 : p.allResults.length = 0 := by omega
          exact hne2 (by rw [h0, List.range_zero])
        by_cases hfe : p.filtered = []
        · have := hempty hfe
          omega
        · have h1 := hlt hfe
          have h2 : p.filtered.length ≤ p.allResults.length := by
            rw [hfilt]
            exact length_filterIdxFrom_le _ _ _ _
          push_cast at h1
          omega
      · show List.range p.allResults.length =
          filterIdxFrom p.dp (toLowerStr []) 0 p.allResults
        rw [show toLowerStr [] = [] from rfl, filterIdxFrom_nil_zero]
  | up =>
    simp only [stepPicker, moveUp]
    by_cases hc : p.selected > 0
    · rw [if_pos hc]
      apply pickerInv_clampOffset
      · exact hmax
      · show (0 : Int) ≤ p.selected - 1
        omega
      · intro hemp
        have := hempty hemp
        show p.selected - 1 = 0
        omega
      · intro hne
        have := hlt hne
        show p.selected - 1 < (p.filtered.length : Int)
        omega
      · exact hfilt
    · rw [if_neg hc]
      exact ⟨hmax, hsel0, hempty, hlt, hoff0, hoffle, hwin, hfilt⟩
  | down =>
    simp only [stepPicker, moveDown]
    by_cases hc : p.selected < (p.filtered.length : Int) - 1
    · rw [if_pos hc]
      apply pickerInv_clampOffset
      · exact hmax
      · show (0 : Int) ≤ p.selected + 1
        omega
      · intro hemp
        rw [hemp] at hc
        show p.selected + 1 = 0
        simp only [List.length_nil, Nat.cast_zero] at hc
        omega
      · intro hne
        show p.selected + 1 < (p.filtered.length : Int)
        omega
      · exact hfilt
    · rw [if_neg hc]
      exact ⟨hmax, hsel0, hempty, hlt, hoff0, hoffle, hwin, hfilt⟩
  | done =>
    exact ⟨hmax, hsel0, hempty, hlt, hoff0, hoffle, hwin, hfilt⟩

theorem pickerInv_runOps (dp : List Char → List Char) (ops : List POp) :
    pickerInv (runOps dp ops) := by
  rw [runOps]
  have hgen : ∀ (q : Picker), pickerInv q → pickerInv (ops.foldl stepPicker q) := by
    induction ops with
    | nil => intro q hq; exact hq
    | cons op rest ih =>
      intro q hq
      exact ih _ (pickerInv_step q op hq)
  exact hgen _ (pickerInv_newPicker dp)


/-- A concrete picker state used by witnesses: search `"a"` over the
single result `"a"`, engine finished. -/
def pickerC7 : Picker :=
  { allResults := [['a']], filtered := [0], search := ['a'], selected := 0,
    offset := 0, maxVisible := 10, searching := false, dp := fun s => s }

/-- A concrete picker state with the second row selected and no active
search, engine still running. -/
def pickerC8 : Picker :=
  { allResults := [['a'], ['b']], filtered := [0, 1], search := [],
    selected := 1, offset := 0, maxVisible := 10, searching := true,
    dp := fun s => s }

/-- Errors surfaced by the startup phase of `runPicker`. -/
inductive PickErr where
  | noMatches
  | noTerminal
  | rawModeFailed
deriving DecidableEq, Repr

/-- The startup phase of `runPicker` (part_000 lines 250-266), in source
order: block for the first result; if the iterator is exhausted first,
fail with the no-matches error; only then check that stdin is a terminal
and then enter raw mode.  The iterator is abstracted as the list of
results it will yield, and the two terminal collaborators as booleans. -/
def runPickerStart (results : List (List Char)) (isTerminal rawOk : Bool) :
    Except PickErr (List Char) :=
  match results with
  | [] => .error .noMatches
  | first :: _ =>
    if !isTerminal then .error .noTerminal
    else if !rawOk then .error .rawModeFailed
    else .ok first

section C1Helpers

theorem splitDots_ne_nil (s : List Char) : splitDots s ≠ [] := by
  induction s using splitDots.induct <;> simp_all [splitDots]

/-- If `a` is a prefix of `name`, then `b` being a suffix of the remainder
after removing `a` is the same as `b` being a suffix of `name` with enough
room for both. -/
theorem suffix_drop_iff (a b name : List Char) (hpre : a <+: name) :
    b <:+ name.drop a.length ↔ b <:+ name ∧ a.length + b.length ≤ name.length := by
  have hlen : a.length ≤ name.length := hpre.length_le
  constructor
  · intro h
    have h1 : b <:+ name := h.trans (List.drop_suffix _ _)
    have h2 : b.length ≤ (name.drop a.length).length := h.length_le
    rw [List.length_drop] at h2
    exact ⟨h1, by omega⟩
  · rintro ⟨hsuf, hle⟩
    have hdrop : name.drop a.length <:+ name := List.drop_suffix _ _
    rcases List.suffix_or_suffix_of_suffix hsuf hdrop with h | h
    · exact h
    · have h2 : (name.drop a.length).length ≤ b.length := h.length_le
      rw [List.length_drop] at h2
      have : (name.drop a.length).length = b.length := by
        rw [List.length_drop]; omega
      have heq := h.eq_of_length this
      rw [heq]

end C1Helpers

/-- C1. For a pattern that the code's splitter decomposes as exactly
one wildcard marker with fixed text `a` before it and `b` after it,
`matchWild` accepts `name` iff `name` starts with `a`, ends with `b`, and
`name` is at least as long as `a` and `b` together. -/
theorem matchWild_single_marker (pattern a b name : List Char)
    (h : splitDots pattern = [a, b]) :
    matchWild pattern name = true ↔
      a <+: name ∧ b <:+ name ∧ a.length + b.length ≤ name.length := by
  rw [matchWild, h]
  simp only [List.getLastD, List.dropLast, matchMids, Bool.and_true,
    Bool.and_eq_true, List.isPrefixOf_iff_prefix, List.isSuffixOf_iff_suffix]
  constructor
  · rintro ⟨hpre, hsuf⟩
    have := (suffix_drop_iff a b name hpre).mp hsuf
    exact ⟨hpre, this.1, this.2⟩
  · rintro ⟨hpre, hsuf, hlen⟩
    exact ⟨hpre, (suffix_drop_iff a b name hpre).mpr ⟨hsuf, hlen⟩⟩

/-- Witness for C1 at `pattern = "a...b"`, `name = "aXb"`. -/
theorem matchWild_single_marker_witness :
    splitDots ("a...b".toList) = ["a".toList, "b".toList] ∧
      matchWild ("a...b".toList) ("aXb".toList) = true :=
  ⟨by decide,
   (matchWild_single_marker ("a...b".toList) ("a".toList) ("b".toList)
      ("aXb".toList) (by decide)).mpr (by decide)⟩

section C2Helpers

theorem getD_concat_length (l : List Seg) (a d : Seg) :
    (l ++ [a]).getD l.length d = a := by
  simp [List.getD_eq_getElem?_getD, List.getElem?_concat_length]

theorem getD_concat_lt (l : List Seg) (a d : Seg) (n : Nat)
    (h : n < l.length) : (l ++ [a]).getD n d = l.getD n d := by
  simp [List.getD_eq_getElem?_getD, List.getElem?_append_left h]

theorem getD_pred_eq_getLast (l : List Seg) (b : List Seg)
    (c : Seg) (h : l = b ++ [c]) (d : Seg) :
    l.getD (l.length - 1) d = c := by
  subst h
  simp only [List.length_append, List.length_cons, List.length_nil]
  have : b.length + 1 - 1 = b.length := by omega
  rw [this, getD_concat_length]

theorem take_concat_len (l : List Seg) (a : Seg) :
    (l ++ [a]).take l.length = l :=
  List.take_left' rfl

theorem rule1_eq_spec (l : List Seg) : rule1 l = rule1Spec l := by
  induction l using List.reverseRecOn with
  | nil => simp [rule1, rule1Spec, List.getD]
  | append_singleton l a _ =>
    rw [rule1, rule1Spec, List.getLast?_concat,
      getD_pred_eq_getLast (l ++ [a]) l a rfl]

theorem rule2_concat (m : List Seg) (a : Seg) :
    rule2 (m ++ [a]) = rule2Spec (m ++ [a]) := by
  simp only [rule2, rule2Spec]
  rw [getD_pred_eq_getLast (m ++ [a]) m a rfl]
  have hrev : (m ++ [a]).reverse = a :: m.reverse := by simp
  rw [hrev]
  simp only []
  induction m using List.reverseRecOn with
  | nil =>
    by_cases h1 : a.kind = SegKind.segWild ∧ dots.isPrefixOf a.pat = true
    · rw [if_pos h1, if_pos (by simp)]
      rw [if_pos ⟨h1.1, by simpa using h1.2, by simp⟩]
      simp
    · rw [if_neg h1]
      rw [if_neg (fun hc => h1 ⟨hc.1, by simpa using hc.2.1⟩)]
  | append_singleton m b _ =>
    have hlen : ((m ++ [b]) ++ [a]).length - 1 = (m ++ [b]).length := by simp
    have hsecond : ((m ++ [b]) ++ [a]).getD ((m ++ [b]).length - 1)
        ⟨.segWild, []⟩ = b := by
      rw [getD_concat_lt _ _ _ _ (by simp)]
      exact getD_pred_eq_getLast (m ++ [b]) m b rfl _
    have hhead : ((m ++ [b]).reverse).head? = some b := by
      rw [List.head?_reverse, List.getLast?_concat]
    by_cases h1 : a.kind = SegKind.segWild ∧ dots.isPrefixOf a.pat = true
    · rw [if_pos h1]
      by_cases h4 : b.kind = SegKind.segRecursive
      · rw [if_neg, if_neg]
        · rintro ⟨-, -, hall⟩
          exact hall b (by rw [hhead]; rfl) h4
        · rw [hlen, hsecond]
          push_neg
          exact ⟨by simp, h4⟩
      · rw [if_pos, if_pos ⟨h1.1, by simpa using h1.2,
          fun s hs => by rw [hhead, Option.mem_some_iff] at hs; rw [← hs]; exact h4⟩]
        · rw [hlen, take_concat_len, List.reverse_reverse]
        · rw [hlen, hsecond]
          right
          exact h4
    · rw [if_neg h1]
      rw [if_neg (fun hc => h1 ⟨hc.1, by simpa using hc.2.1⟩)]

theorem rule2_eq_spec (l : List Seg) : rule2 l = rule2Spec l := by
  induction l using List.reverseRecOn with
  | nil => simp [rule2, rule2Spec, List.getD, dots]
  | append_singleton m a _ => exact rule2_concat m a

theorem rule1_getLast_wild (l : List Seg) (h : l ≠ []) :
    ∃ m c, rule1 l = m ++ [c] ∧ c.kind = .segWild := by
  induction l using List.reverseRecOn with
  | nil => exact absurd rfl h
  | append_singleton m a _ =>
    rw [rule1, getD_pred_eq_getLast (m ++ [a]) m a rfl]
    by_cases hk : a.kind = SegKind.segRecursive
    · exact ⟨m ++ [a], ⟨.segWild, dots⟩, by simp [hk], rfl⟩
    · refine ⟨m, a, by simp [hk], ?_⟩
      cases hka : a.kind
      · rfl
      · exact absurd hka hk

theorem rule2_getLast_preserved (m : List Seg) (c : Seg) :
    ∃ m', rule2 (m ++ [c]) = m' ++ [c] := by
  simp only [rule2]
  rw [getD_pred_eq_getLast (m ++ [c]) m c rfl]
  by_cases h1 : c.kind = SegKind.segWild ∧ dots.isPrefixOf c.pat = true
  · rw [if_pos h1]
    by_cases h2 : (m ++ [c]).length - 1 = 0 ∨
        ((m ++ [c]).getD ((m ++ [c]).length - 1 - 1) ⟨.segWild, []⟩).kind ≠
          SegKind.segRecursive
    · rw [if_pos h2]
      exact ⟨(m ++ [c]).take ((m ++ [c]).length - 1) ++ [⟨.segRecursive, []⟩],
        by simp⟩
    · rw [if_neg h2]; exact ⟨m, rfl⟩
  · rw [if_neg h1]; exact ⟨m, rfl⟩

end C2Helpers

/-- C2. For every raw pattern on which compilation succeeds, the
compiled Seg sequence equals the spec's pipeline (split on `/`
dropping empties, classify, rule 1, rule 2), and the final Seg of
every compiled pattern is a wildcard. -/
theorem parsePattern_correct (pattern : List Char) (segs : List Seg)
    (h : parsePattern pattern = some segs) :
    parsePatternSpec pattern = some segs ∧
      ∃ s, segs.getLast? = some s ∧ s.kind = .segWild := by
  simp only [parsePattern] at h
  simp only [parsePatternSpec]
  by_cases hnil : classifySegs (splitSlash pattern) = []
  · rw [if_pos hnil] at h
    exact absurd h (by simp)
  · rw [if_neg hnil] at h
    rw [if_neg hnil]
    have hseg := Option.some.inj h
    constructor
    · rw [← rule1_eq_spec, ← rule2_eq_spec, hseg]
    · obtain ⟨m, c, hm, hc⟩ := rule1_getLast_wild _ hnil
      rw [hm] at hseg
      obtain ⟨m', hm'⟩ := rule2_getLast_preserved m c
      rw [hm'] at hseg
      exact ⟨c, by rw [← hseg, List.getLast?_concat], hc⟩

/-- Witness for C2 at `pattern = "...go"`: the compiled form is
`[Recursive, Wildcard "...go"]`. -/
theorem parsePattern_correct_witness :
    parsePatternSpec ("...go".toList) =
        some [⟨.segRecursive, []⟩, ⟨.segWild, "...go".toList⟩] ∧
      ∃ s, ([⟨.segRecursive, []⟩,
        (⟨.segWild, "...go".toList⟩ : Seg)] : List Seg).getLast? =
          some s ∧ s.kind = .segWild :=
  parsePattern_correct ("...go".toList)
    [⟨.segRecursive, []⟩, ⟨.segWild, "...go".toList⟩] (by decide)

/-- C5. After any sequence of result-arrival, setSearch, moveUp,
moveDown (and engine-exhaustion) operations from the fresh picker state,
the selection cursor is in range whenever `filtered` is non-empty, and
the scroll window `offset ≤ selected < offset + maxVisible` holds with
`offset ≥ 0`. -/
theorem picker_window_invariant (dp : List Char → List Char)
    (ops : List POp) :
    ((runOps dp ops).filtered ≠ [] →
      0 ≤ (runOps dp ops).selected ∧
        (runOps dp ops).selected < ((runOps dp ops).filtered.length : Int)) ∧
      0 ≤ (runOps dp ops).offset ∧
      (runOps dp ops).offset ≤ (runOps dp ops).selected ∧
      (runOps dp ops).selected <
        (runOps dp ops).offset + (runOps dp ops).maxVisible := by
  obtain ⟨hmax, hsel0, hempty, hlt, hoff0, hoffle, hwin, hfilt⟩ :=
    pickerInv_runOps dp ops
  exact ⟨fun hne => ⟨hsel0, hlt hne⟩, hoff0, hoffle, hwin⟩

/-- Witness for C5 at a concrete operation sequence. -/
theorem picker_window_invariant_witness :
    (0 ≤ (runOps (fun s => s) [POp.add ['a'], POp.down]).selected ∧
      (runOps (fun s => s) [POp.add ['a'], POp.down]).selected <
        ((runOps (fun s => s) [POp.add ['a'], POp.down]).filtered.length : Int)) ∧
      0 ≤ (runOps (fun s => s) [POp.add ['a'], POp.down]).offset ∧
      (runOps (fun s => s) [POp.add ['a'], POp.down]).offset ≤
        (runOps (fun s => s) [POp.add ['a'], POp.down]).selected ∧
      (runOps (fun s => s) [POp.add ['a'], POp.down]).selected <
        (runOps (fun s => s) [POp.add ['a'], POp.down]).offset +
          (runOps (fun s => s) [POp.add ['a'], POp.down]).maxVisible :=
  ⟨(picker_window_invariant (fun s => s) [POp.add ['a'], POp.down]).1
      (by decide),
    (picker_window_invariant (fun s => s) [POp.add ['a'], POp.down]).2⟩

/-- C6. After any operation sequence, `filtered` equals the strictly
increasing enumeration of the indices into `allResults` whose display
path contains the current search string case-insensitively (so repeating
`setSearch` with the current string reproduces the fresh recomputation). -/
theorem picker_filtered_is_filter (dp : List Char → List Char)
    (ops : List POp) :
    (runOps dp ops).filtered =
        (List.range (runOps dp ops).allResults.length).filter
          (fun i => containsSub (toLowerStr (runOps dp ops).search)
            (toLowerStr ((runOps dp ops).dp
              ((runOps dp ops).allResults.getD i [])))) ∧
      (runOps dp ops).filtered.Pairwise (· < ·) := by
  obtain ⟨-, -, -, -, -, -, -, hfilt⟩ := pickerInv_runOps dp ops
  constructor
  · rw [hfilt, filterIdxFrom_eq_range_filter]
  · rw [hfilt]
    exact pairwise_lt_filterIdxFrom _ _ _

/-- C7. When the engine has finished and a non-empty candidate search
string matches nothing, `setSearch` rejects: it returns `false` and the
state is unchanged. -/
theorem setSearch_rejected (p : Picker) (s : List Char)
    (hdone : p.searching = false) (hs : s ≠ [])
    (hempty : filterIdxFrom p.dp (toLowerStr s) 0 p.allResults = []) :
    setSearch p s = (false, p) := by
  simp only [setSearch]
  rw [if_pos hs, if_pos ⟨hempty, hdone⟩]

/-- Witness for C7: searching `"z"` over the lone finished result
`"a"`. -/
theorem setSearch_rejected_witness :
    setSearch pickerC7 ['z'] = (false, pickerC7) :=
  setSearch_rejected pickerC7 ['z'] rfl (by decide) (by decide)

/-- C8, counterexample. The always-accepted clearing call
`setSearch("")` does NOT reset `selected` to 0: from a state with
`selected = 1` it is accepted and leaves `selected = 1`. -/
theorem setSearch_clear_keeps_selected :
    (setSearch pickerC8 []).1 = true ∧
      (setSearch pickerC8 []).2.selected = 1 ∧
      (setSearch pickerC8 []).2.selected ≠ 0 := by
  refine ⟨rfl, rfl, by decide⟩

/-- C8, amended. Every accepted `setSearch(s)` sets `search` to `s`,
recomputes `filtered` from scratch over `allResults`, and resets `offset`
to 0 followed by a re-clamp; a non-empty `s` also resets `selected` to 0,
while the always-accepted clearing call `setSearch("")` leaves `selected`
unchanged. -/
theorem setSearch_accepted_spec (p : Picker) (s : List Char)
    (hacc : (setSearch p s).1 = true) :
    (setSearch p s).2.search = s ∧
      (setSearch p s).2.filtered =
        filterIdxFrom p.dp (toLowerStr s) 0 p.allResults ∧
      (s ≠ [] → (setSearch p s).2.selected = 0) ∧
      (s = [] → (setSearch p s).2.selected = p.selected) ∧
      (setSearch p s).2 =
        clampOffset { (setSearch p s).2 with offset := 0 } := by
  by_cases hs : s ≠ []
  · by_cases hrej : filterIdxFrom p.dp (toLowerStr s) 0 p.allResults = [] ∧
        p.searching = false
    · exfalso
      have : setSearch p s = (false, p) := by
        simp only [setSearch]
        rw [if_pos hs, if_pos hrej]
      rw [this] at hacc
      simp at hacc
    · have hstep : setSearch p s =
          (true, clampOffset
            { p with
                search := s
                filtered := filterIdxFrom p.dp (toLowerStr s) 0 p.allResults
                selected := 0
                offset := 0 }) := by
        simp only [setSearch]
        rw [if_pos hs, if_neg hrej]
      rw [hstep]
      exact ⟨rfl, rfl, fun _ => rfl, fun h => absurd h hs, rfl⟩
  · push_neg at hs
    subst hs
    have hstep : setSearch p [] =
        (true, clampOffset
          { (rebuildFiltered { p with search := ([] : List Char) }) with
            offset := 0 }) := by
      simp only [setSearch]
      rw [if_neg (by simp)]
    rw [hstep]
    refine ⟨rfl, ?_, fun h => absurd rfl h, fun _ => rfl, rfl⟩
    show List.range p.allResults.length =
      filterIdxFrom p.dp (toLowerStr []) 0 p.allResults
    rw [show toLowerStr [] = [] from rfl, filterIdxFrom_nil_zero]

/-- Witness for the amended C8: the accepted call `setSearch("b")` on the
concrete state. -/
theorem setSearch_accepted_spec_witness :
    (setSearch pickerC8 ['b']).2.search = ['b'] ∧
      (setSearch pickerC8 ['b']).2.filtered =
        filterIdxFrom pickerC8.dp (toLowerStr ['b']) 0 pickerC8.allResults ∧
      (['b'] ≠ [] → (setSearch pickerC8 ['b']).2.selected = 0) ∧
      (['b'] = [] → (setSearch pickerC8 ['b']).2.selected = pickerC8.selected) ∧
      (setSearch pickerC8 ['b']).2 =
        clampOffset { (setSearch pickerC8 ['b']).2 with offset := 0 } :=
  setSearch_accepted_spec pickerC8 ['b'] (by decide)

/-- C10. When the iterator is exhausted before any result,
`runPicker` fails with the no-matches error for every state of the
terminal collaborators (the terminal is never consulted); with at least
one result and a non-terminal stdin the outcome is the no-terminal
error. -/
theorem runPickerStart_no_matches_first (isTerminal rawOk : Bool) :
    runPickerStart [] isTerminal rawOk = .error .noMatches ∧
      ∀ (first : List Char) (rest : List (List Char)) (rawOk2 : Bool),
        runPickerStart (first :: rest) false rawOk2 = .error .noTerminal := by
  constructor
  · rfl
  · intro first rest rawOk2
    rfl
